import Mathlib

/-!
Pythonic intrinsics: a verification development.

Shallow embedding of `pythonic++/core/intrinsics.h` and of
`pythonic/__builtin__/set/issuperset.hpp`.  The host type `long` is
embedded as `Int` (the properties below are stated for runs without overflow),
host integer division `/` is truncating division `Int.tdiv`, `core::list<T>` is
`List T`, and undefined behaviour of the host (reading past the end of a
sequence, writing past the end of a buffer) is the result `none`.
-/

namespace Pythonic

/-! ## xrange -/

/-- The iterator `struct xrange_iterator`: a current `value` and a `step`. -/
structure xrange_iterator where
  value : Int
  step : Int
deriving DecidableEq, Repr

namespace xrange_iterator

/-- Dereference, `operator*`: the current value. -/
def deref (it : xrange_iterator) : Int := it.value

/-- Increment, `operator++`: `value += step`. -/
def incr (it : xrange_iterator) : xrange_iterator :=
  { it with value := it.value + it.step }

/-- Inequality, `operator!=`: compares the values only. -/
def ne (a other : xrange_iterator) : Bool := a.value != other.value

/-- Difference, `operator-`: `(value - other.value) / step`, host division. -/
def sub (a other : xrange_iterator) : Int := (a.value - other.value).tdiv a.step

end xrange_iterator

/-- The triple `struct xrange`. -/
structure xrange where
  _begin : Int
  _end : Int
  _step : Int
deriving DecidableEq, Repr

namespace xrange

/-- Constructor `xrange(long e)`: `_begin(0), _end(e), _step(1)`. -/
def ofEnd (e : Int) : xrange := ⟨0, e, 1⟩

/-- Member `begin()`. -/
def begin (xr : xrange) : xrange_iterator := ⟨xr._begin, xr._step⟩

/-- Member `end()`. -/
def end_ (xr : xrange) : xrange_iterator :=
  if xr._step > 0 then
    ⟨xr._begin + max 0 (xr._step * ((xr._end - xr._begin + xr._step - 1).tdiv xr._step)),
      xr._step⟩
  else
    ⟨xr._begin + min 0 (xr._step * ((xr._end - xr._begin + xr._step + 1).tdiv xr._step)),
      xr._step⟩

end xrange

/-- The random-access `_len` applied to an `xrange`: `t.end() - t.begin()`. -/
def len_xrange (t : xrange) : Int := t.end_.sub t.begin

/-- A value `v` lies strictly before `e` in the direction of the step `s`. -/
def before (s e v : Int) : Prop := (0 < s ∧ v < e) ∨ (s < 0 ∧ e < v)

instance (s e v : Int) : Decidable (before s e v) := by
  unfold before; infer_instance

/-! ## range -/

/-- The host algorithm `std::copy(first, last, d)` on `xrange_iterator`s, the
destination being the remaining slots of a buffer:
`while (first != last) *d++ = *first++;`.  A write past the last slot of the
buffer is undefined behaviour (`none`); slots that are not reached keep their
content. -/
def copy_xrange (last : xrange_iterator) : xrange_iterator → List Int → Option (List Int)
  | first, [] => if first.ne last then none else some []
  | first, x :: rest =>
    if first.ne last then (copy_xrange last first.incr rest).map (first.deref :: ·)
    else some (x :: rest)

/-- The helper `_range(xrange&)`: a list of `len(xr)` slots filled by `std::copy`
from `xr.begin()` to `xr.end()`.  A list of negative size cannot be built. -/
def _range (xr : xrange) : Option (List Int) :=
  if len_xrange xr < 0 then none
  else copy_xrange xr.end_ xr.begin (List.replicate (len_xrange xr).toNat 0)

/-- The overload `range(long e)`. -/
def range1 (e : Int) : Option (List Int) := _range (xrange.ofEnd e)

/-- The overload `range(long b, long e, long s)`. -/
def range (b e s : Int) : Option (List Int) := _range ⟨b, e, s⟩

/-- The arithmetic progression `v, v + s, …` of `n` terms. -/
def progression (v s : Int) : Nat → List Int
  | 0 => []
  | n + 1 => v :: progression (v + s) s n

/-! ## sorted -/

section Sorting
variable {α : Type}

/-- One insertion step of the host sort: `x` goes in front of the first
element it is strictly less than. -/
def sort_insert (lt : α → α → Bool) (x : α) : List α → List α
  | [] => [x]
  | y :: ys => if lt x y then x :: y :: ys else y :: sort_insert lt x ys

/-- The host algorithm `std::sort(first, last, lt)`: the range rearranged in
ascending order of `lt`.  The standard fixes the outcome up to the order of
equivalent elements; on a total order the outcome is unique, and this
insertion sort computes it. -/
def std_sort (lt : α → α → Bool) : List α → List α
  | [] => []
  | x :: xs => sort_insert lt x (std_sort lt xs)

/-- The body of `sorted(seq)` as a run on the two lists it names: `out` is built
as a copy of `seq`, `std::sort(out.begin(), out.end())` sorts `out` with
`operator<`, `out` is returned.  The result pairs the final `seq` with the
returned `out`. -/
def sorted_run [LT α] [DecidableRel (fun a b : α => a < b)] (seq : List α) :
    List α × List α :=
  let out := seq
  let out := std_sort (fun a b => decide (a < b)) out
  (seq, out)

/-- The value returned by `sorted(seq)`. -/
def sorted [LT α] [DecidableRel (fun a b : α => a < b)] (seq : List α) : List α :=
  (sorted_run seq).2

/-- The body of `sorted(seq, cmp)` as a run on the two lists it names: `out` is
built as a copy of `seq`, the sort statement `std::sort(seq.bein(), seq.end(), cmp)`
names `seq` (not `out`), `out` is returned.  The result pairs the final `seq`
with the returned `out`. -/
def sorted_cmp_run (cmp : α → α → Bool) (seq : List α) : List α × List α :=
  let out := seq
  let seq := std_sort cmp seq
  (seq, out)

/-- The value returned by `sorted(seq, cmp)`. -/
def sorted_cmp (cmp : α → α → Bool) (seq : List α) : List α :=
  (sorted_cmp_run cmp seq).2

end Sorting

/-! ## max and min -/

section Aggregate
variable {α : Type}

/-- The binary `Max<T0, T1>::operator()`: `t0 > t1 ? t0 : t1`. -/
def Max2 (gt : α → α → Bool) (t0 t1 : α) : α := if gt t0 t1 then t0 else t1

/-- The binary `Min<T0, T1>::operator()`: `t0 > t1 ? t1 : t0`. -/
def Min2 (gt : α → α → Bool) (t0 t1 : α) : α := if gt t0 t1 then t1 else t0

/-- The scalar `min(t0, values...)`, the argument pack after `t0` being a list.
No further value selects `Min<T0>` (returns `t`), one selects `Min<T0, T1>`
(`t0 > t1 ? t1 : t0`), two or more select the variadic `Min<T0, Types...>`:
`auto t1 = (*this)(values...); return t0 > t1 ? t0 : t1;`, whose inner call is
the same reduction on the remaining pack. -/
def Min (gt : α → α → Bool) : α → List α → α
  | t, [] => t
  | t0, [t1] => if gt t0 t1 then t1 else t0
  | t0, v :: w :: rest =>
    let t1 := Min gt v (w :: rest)
    if gt t0 t1 then t0 else t1

/-- The host comparison `>` on `long`. -/
def long_gt (a b : Int) : Bool := decide (a > b)

/-- A comparison of pairs by their first component only: pairs with equal first
components compare equal yet may differ in the second. -/
def key_gt (a b : Nat × Nat) : Bool := decide (a.1 > b.1)

end Aggregate

/-! ## reduce -/

section Functional
variable {α β γ : Type}

/-- The host algorithm `std::accumulate(first, last, init, op)`:
`for (; first != last; ++first) init = op(init, *first); return init;`. -/
def accumulate (op : β → α → β) : List α → β → β
  | [], init => init
  | x :: rest, init => accumulate op rest (op init x)

/-- The overload `reduce(op, s)`, for elements of type `α` and an operator
whose result on two elements has type `ρ`: `auto r = *s.begin()`, then `++iter`;
when `iter != s.end()` it returns `std::accumulate(iter, s.end(), r, op)`,
otherwise `r`.  The accumulator `r` has the element type, so inside
`std::accumulate` every result of `op` is converted to the element type
(`toElem`, at `init = op(init, *first)`); the value returned is converted to the
declared return type `decltype(op(elem, elem))` (`toRes`).  Dereferencing
`begin()` of an empty sequence is undefined behaviour (`none`). -/
def reduce {ρ : Type} (toElem : ρ → α) (toRes : α → ρ) (op : α → α → ρ) (s : List α) :
    Option ρ :=
  match s with
  | [] => none
  | r :: iter =>
    if iter.isEmpty = false then
      some (toRes (accumulate (fun init x => toElem (op init x)) iter r))
    else some (toRes r)

/-- The overload `reduce(op, s, init)`: `std::accumulate` over the whole of `s`
from `init` (already of the accumulator type). -/
def reduce_init (op : β → α → β) (s : List α) (init : β) : β :=
  accumulate op s init

/-- The host conversion of an `int` to `unsigned char` (8 bits): the value
modulo `2 ^ 8`.  An `unsigned char` is held as its value, an integer from `0`
to `255`. -/
def to_unsigned_char (v : Int) : Int := v % 2 ^ 8

/-- The host conversion of an `unsigned char` to `int`: the same value. -/
def int_of_unsigned_char (c : Int) : Int := c

/-- The callable `[](int a, int b) { return a + b; }`. -/
def int_plus (a b : Int) : Int := a + b

/-! ## map, filter, zip -/

/-- The helper `_map(op, seq, iterators...)` with one extra iterator: a list of
`len(seq)` slots, the slot of each `iseq` of `seq` receiving
`op(iseq, *iterators++)`.  Dereferencing the extra iterator past the end of its
sequence is undefined behaviour (`none`). -/
def _map (op : α → β → γ) : List α → List β → Option (List γ)
  | [], _ => some []
  | _ :: _, [] => none
  | iseq :: seq, x :: iterators => (_map op seq iterators).map (op iseq x :: ·)

/-- The function `map(op, seq, lists...)` with one extra list:
`_map(op, seq, lists.begin()...)`. -/
def map (op : α → β → γ) (seq : List α) (list1 : List β) : Option (List γ) :=
  _map op seq list1

/-- The host algorithm `std::copy_if(first, last, std::back_inserter(out), f)`:
each element satisfying `f` is appended to `out`. -/
def copy_if (f : α → Bool) : List α → List α → List α
  | [], out => out
  | x :: rest, out => if f x then copy_if f rest (out ++ [x]) else copy_if f rest out

/-- The function `filter(f, iterable)`: `copy_if` into an initially empty list. -/
def filter (f : α → Bool) (iterable : List α) : List α :=
  copy_if f iterable []

/-- The helper `_zip(first, last, iters...)` with one extra iterator: a list of
`last - first` slots, `while (first != last) *iter++ = make_tuple(*first++, *iters++)`.
Dereferencing the extra iterator past the end of its sequence is undefined
behaviour (`none`). -/
def _zip : List α → List β → Option (List (α × β))
  | [], _ => some []
  | _ :: _, [] => none
  | x :: first, y :: iters => (_zip first iters).map ((x, y) :: ·)

/-- The function `zip(s0, lists...)` with one extra list:
`_zip(s0.begin(), s0.end(), lists.begin()...)`. -/
def zip (s0 : List α) (s1 : List β) : Option (List (α × β)) :=
  _zip s0 s1

/-- Modelled from the spec: the sentinel type `core::empty_list` is declared
outside this header; the spec calls it the zero-cardinality sentinel used when
no iterable argument is given. -/
inductive empty_list where
  | mk : empty_list
deriving DecidableEq, Repr

/-- The elements of the sentinel, at any element type: none. -/
def empty_list.toList (_ : empty_list) : List α := []

/-- The overload `zip()`: `return core::empty_list();`. -/
def zip0 : empty_list := empty_list.mk

end Functional

/-! ## enumerate -/

section Enumerate
variable {α : Type}

/-- The iterator `struct enumerate_iterator<T>`: an index `value` and a list
iterator `iter`, held as the elements of the list from its position on. -/
structure enumerate_iterator (α : Type) where
  value : Int
  iter : List α

namespace enumerate_iterator

/-- Dereference, `operator*`: `make_tuple(value, *iter)`.  Dereferencing a list
iterator at the end of its list is undefined behaviour (`none`). -/
def deref (it : enumerate_iterator α) : Option (Int × α) :=
  match it.iter with
  | [] => none
  | x :: _ => some (it.value, x)

/-- Increment, `operator++`: `++value, ++iter`. -/
def incr (it : enumerate_iterator α) : enumerate_iterator α :=
  ⟨it.value + 1, it.iter.tail⟩

/-- Inequality, `operator!=`: compares the indices only. -/
def ne (a other : enumerate_iterator α) : Bool := a.value != other.value

end enumerate_iterator

/-- The view `struct _enumerate<T>`: a copy of the list. -/
structure _enumerate (α : Type) where
  seq : List α

/-- Member `begin()`: `enumerate_iterator<T>(0L, seq.begin())`. -/
def _enumerate.begin (en : _enumerate α) : enumerate_iterator α := ⟨0, en.seq⟩

/-- Member `end()`: `enumerate_iterator<T>(seq.end() - seq.begin(), seq.end())`. -/
def _enumerate.end_ (en : _enumerate α) : enumerate_iterator α := ⟨en.seq.length, []⟩

/-- The function `enumerate(seq)`: `_enumerate<T>(seq)`. -/
def enumerate (seq : List α) : _enumerate α := ⟨seq⟩

/-- The host loop that traverses an iterator range (a range-based `for` over the
view), here on `enumerate_iterator`s: `for (; first != last; ++first) yield *first`.
It runs on `fuel`, one unit per increment; `none` means that the fuel ran out
before `first` reached `last` or that a dereference was undefined. -/
def enumerate_traverse (last : enumerate_iterator α) :
    Nat → enumerate_iterator α → Option (List (Int × α))
  | 0, first => if first.ne last then none else some []
  | fuel + 1, first =>
    if first.ne last then
      match first.deref with
      | none => none
      | some p => (enumerate_traverse last fuel first.incr).map (p :: ·)
    else some []

/-- The pairs `(v, l[0]), (v + 1, l[1]), …` of consecutive indices and elements. -/
def indexed (v : Int) : List α → List (Int × α)
  | [] => []
  | x :: rest => (v, x) :: indexed (v + 1) rest

/-- The pairs yielded by traversing `enumerate(seq)` from `begin()` to `end()`. -/
def enumerate_pairs (fuel : Nat) (en : _enumerate α) : Option (List (Int × α)) :=
  enumerate_traverse en.end_ fuel en.begin

end Enumerate

/-! ## sum, divmod, all, any -/

/-- The overload `sum(s, start)`: `std::accumulate(s.begin(), s.end(), start)`,
which accumulates with `+`. -/
def sum_init (s : List Int) (start : Int) : Int :=
  accumulate (fun acc x => acc + x) s start

/-- The overload `sum(s)`: `sum(s, 0L)`. -/
def sum (s : List Int) : Int := sum_init s 0

/-- The function `divmod(t0, t1)` on `long`: `make_tuple(t0 / t1, t0 % t1)` with
the host truncating division and remainder.  Division by zero is undefined
behaviour (`none`). -/
def divmod (t0 t1 : Int) : Option (Int × Int) :=
  if t1 = 0 then none else some (t0.tdiv t1, t0.tmod t1)

section Logic
variable {α γ : Type}

/-- The host algorithm `std::find_if(first, last, pred)`: the position of the
first element satisfying `pred` (the elements from it on), or `last` (no
element left). -/
def find_if (pred : α → Bool) : List α → List α
  | [] => []
  | x :: rest => if pred x then x :: rest else find_if pred rest

/-- The function `all(s)`: `s.end() == find_if(s.begin(), s.end(), not bool(t))`,
`truthy` being the conversion `bool(t)`. -/
def all (truthy : α → Bool) (s : List α) : Bool :=
  (find_if (fun t => !truthy t) s).isEmpty

/-- The function `any(s)`: `s.end() != find_if(s.begin(), s.end(), bool(t))`. -/
def any (truthy : α → Bool) (s : List α) : Bool :=
  !(find_if (fun t => truthy t) s).isEmpty

/-- The helper `_map(op, seq)` without extra iterator, as called by
`map(op, seq)`: a list of `len(seq)` slots, the slot of each `iseq` receiving
`op(iseq)`. -/
def map1 (op : α → γ) : List α → List γ
  | [] => []
  | iseq :: seq => op iseq :: map1 op seq

end Logic

/-! ## xrange: reverse iterators, traversal, reversed -/

/-- Member `rbegin()` of `xrange`. -/
def xrange.rbegin (xr : xrange) : xrange_iterator := ⟨xr._end - xr._step, -xr._step⟩

/-- Member `rend()` of `xrange`. -/
def xrange.rend (xr : xrange) : xrange_iterator :=
  if xr._step > 0 then
    ⟨xr._end - max 0 (xr._step * (1 + (xr._end - xr._begin).tdiv xr._step)), -xr._step⟩
  else
    ⟨xr._end - min 0 (xr._step * (1 + (xr._end - xr._begin).tdiv xr._step)), -xr._step⟩

/-- Modelled from the spec: the loop that traverses an iterator range, as run by
the range constructor `core::list(first, last)` (declared outside this header)
behind `list(iterable)`, which the spec describes as populating the list by copy
in source order: `for (; first != last; ++first) yield *first`, here on
`xrange_iterator`s.  The loop need not end, so it runs on `fuel`, one unit per
increment; `none` means the fuel ran out before `first` reached `last`. -/
def xrange_traverse (last : xrange_iterator) : Nat → xrange_iterator → Option (List Int)
  | 0, first => if first.ne last then none else some []
  | fuel + 1, first =>
    if first.ne last then (xrange_traverse last fuel first.incr).map (first.deref :: ·)
    else some []

/-- The view `struct _reversed<Iterable>`: a copy of the iterable. -/
structure _reversed (Iterable : Type) where
  iterable : Iterable

/-- The function `reversed(iterable)`: `_reversed<Iterable>(iterable)`. -/
def reversed {Iterable : Type} (iterable : Iterable) : _reversed Iterable := ⟨iterable⟩

/-- Member `begin()` of `_reversed<xrange>`: `iterable.rbegin()`. -/
def _reversed.begin (r : _reversed xrange) : xrange_iterator := r.iterable.rbegin

/-- Member `end()` of `_reversed<xrange>`: `iterable.rend()`. -/
def _reversed.end_ (r : _reversed xrange) : xrange_iterator := r.iterable.rend

/-- The forward traversal `list(xr)` of an `xrange`, from `begin()` to `end()`. -/
def list_xrange (fuel : Nat) (xr : xrange) : Option (List Int) :=
  xrange_traverse xr.end_ fuel xr.begin

/-- The traversal `list(reversed(xr))` of a reversed `xrange`, from `begin()` to
`end()`, that is from `xr.rbegin()` to `xr.rend()`. -/
def list_reversed_xrange (fuel : Nat) (r : _reversed xrange) : Option (List Int) :=
  xrange_traverse r.end_ fuel r.begin

/-- Modelled from the spec: the reverse iterators of `core::list` are declared
outside this header; traversing a list from `rbegin()` to `rend()` is the
reverse iteration of the list, so `list(reversed(l))` holds the elements of `l`
in reverse order. -/
def list_reversed_list {α : Type} (r : _reversed (List α)) : List α := r.iterable.reverse

/-- A value `v` lies strictly beyond `b` in the direction of the step `s`. -/
def beyond (s b v : Int) : Prop := (0 < s ∧ b < v) ∨ (s < 0 ∧ v < b)

instance (s b v : Int) : Decidable (beyond s b v) := by
  unfold beyond; infer_instance

/-! ## bin -/

/-- The expression `1 << count` on the `int` literal `1` (an `int` has 32 bits):
its value is `2 ^ count` when that is representable in `int`; otherwise the
shift is undefined behaviour (`none`). -/
def shl_one_int (count : Nat) : Option Int :=
  if count < 31 then some (2 ^ count) else none

/-- The conversion of an integer to `size_t` (64 bits, unsigned). -/
def to_size_t (x : Int) : Nat := (x % 2 ^ 64).toNat

/-- The first loop of `bin`: `while (i and not (v & i)) i >>= 1;`, returning the
final `i`. -/
def bin_skip (v : Nat) (i : Nat) : Nat :=
  if i ≠ 0 ∧ v &&& i = 0 then bin_skip v (i >>> 1) else i
termination_by i
decreasing_by
  rename_i h
  rw [Nat.shiftRight_eq_div_pow]
  exact Nat.div_lt_self (Nat.pos_of_ne_zero h.1) (by decide)

/-- The second loop of `bin`:
`for (; i; i >>= 1) if (v & i) oss << "1"; else oss << "0";`, returning the final
content of `oss`. -/
def bin_emit (v : Nat) (i : Nat) (oss : String) : String :=
  if i ≠ 0 then bin_emit v (i >>> 1) (if v &&& i ≠ 0 then oss ++ "1" else oss ++ "0") else oss
termination_by i
decreasing_by
  rename_i h
  rw [Nat.shiftRight_eq_div_pow]
  exact Nat.div_lt_self (Nat.pos_of_ne_zero h) (by decide)

/-- The function `bin<T>(v)` for an integral type `T` of `sizeof_T` bytes:
`size_t i = 1 << (8*sizeof(T)-1);`, the first loop, then `"0b0"` when `i` is
zero and otherwise `"0b"` followed by the output of the second loop.  In `v & i`
the value `v` is converted to `size_t`. -/
def bin (sizeof_T : Nat) (v : Int) : Option String :=
  match shl_one_int (8 * sizeof_T - 1) with
  | none => none
  | some m =>
    let i := bin_skip (to_size_t v) (to_size_t m)
    if i = 0 then some "0b0" else some (bin_emit (to_size_t v) i "0b")

/-! ## set.issuperset -/

/-- Modelled from the spec: the sentinel type `types::empty_set` is declared
outside the file of `issuperset`; the spec calls it the zero-cardinality
sentinel used when `set()` has no iterable argument. -/
inductive empty_set where
  | mk : empty_set
deriving DecidableEq, Repr

section Issuperset
variable {S U : Type}

/-- The overload `issuperset(types::set<T> const &set, U const &other)`:
`return set.issuperset(other);`.  The member `issuperset` of `types::set<T>` is
declared outside this file and is the parameter `member`. -/
def issuperset (member : S → U → Bool) (set : S) (other : U) : Bool :=
  member set other

/-- The overload `issuperset(types::empty_set const &set, U const &other)`:
`return false;`. -/
def issuperset_empty_set (_set : empty_set) (_other : U) : Bool :=
  false

end Issuperset

/-- A sample member for `types::set<long>` held as a list of its elements: every
element of `other` is in `set`. -/
def list_issuperset (set other : List Int) : Bool :=
  other.all (fun x => set.contains x)

/-! ## Lemmas on `xrange` -/

theorem end_value_pos (b e s : Int) (hs : 0 < s) :
    ∃ n : ℕ, (xrange.end_ ⟨b, e, s⟩).value = b + s * n ∧
      ∀ k : ℕ, k < n ↔ b + k * s < e := by
  simp only [xrange.end_, hs, if_true]
  by_cases hm : 0 ≤ e - b + s - 1
  · rw [Int.tdiv_eq_ediv hm hs.le]
    have hq : 0 ≤ (e - b + s - 1) / s := Int.ediv_nonneg hm hs.le
    have h1 := Int.ediv_add_emod (e - b + s - 1) s
    have h2 := Int.emod_nonneg (e - b + s - 1) hs.ne.symm
    have h3 := Int.emod_lt_of_pos (e - b + s - 1) hs
    generalize (e - b + s - 1) / s = q at *
    generalize (e - b + s - 1) % s = r at *
    refine ⟨q.toNat, ?_, ?_⟩
    · rw [max_eq_right (mul_nonneg hs.le hq), Int.toNat_of_nonneg hq]
    · intro k
      have hk : ((k : ℤ) < q.toNat) ↔ (k : ℤ) < q := by rw [Int.toNat_of_nonneg hq]
      rw [← Int.ofNat_lt, hk]
      constructor
      · intro h
        have : s * ((k : ℤ) + 1) ≤ s * q := by
          apply mul_le_mul_of_nonneg_left _ hs.le; omega
        nlinarith
      · intro h
        by_contra hc
        have : s * q ≤ s * (k : ℤ) := by
          apply mul_le_mul_of_nonneg_left _ hs.le; omega
        nlinarith
  · have hm' : e - b + s - 1 < 0 := by omega
    have hq : (e - b + s - 1).tdiv s ≤ 0 := by
      have := Int.tdiv_nonneg (a := -(e - b + s - 1)) (b := s) (by omega) hs.le
      rw [Int.neg_tdiv] at this; omega
    refine ⟨0, ?_, ?_⟩
    · rw [max_eq_left (mul_nonpos_of_nonneg_of_nonpos hs.le hq)]; simp
    · intro k
      have : 0 ≤ (k : ℤ) * s := mul_nonneg (by omega) hs.le
      constructor
      · intro h; omega
      · intro h; omega

theorem end_value_neg (b e s : Int) (hs : s < 0) :
    ∃ n : ℕ, (xrange.end_ ⟨b, e, s⟩).value = b + s * n ∧
      ∀ k : ℕ, k < n ↔ e < b + k * s := by
  have hns : ¬ (s > 0) := by omega
  simp only [xrange.end_, hns, if_false]
  by_cases hm : e - b + s + 1 ≤ 0
  · have ht : (e - b + s + 1).tdiv s = (-(e - b + s + 1)) / (-s) := by
      rw [← Int.tdiv_eq_ediv (by omega) (by omega), Int.neg_tdiv, Int.tdiv_neg, neg_neg]
    rw [ht]
    have hq : 0 ≤ (-(e - b + s + 1)) / (-s) := Int.ediv_nonneg (by omega) (by omega)
    have h1 := Int.ediv_add_emod (-(e - b + s + 1)) (-s)
    have h2 := Int.emod_nonneg (-(e - b + s + 1)) (b := -s) (by omega)
    have h3 := Int.emod_lt_of_pos (-(e - b + s + 1)) (b := -s) (by omega)
    generalize (-(e - b + s + 1)) / (-s) = q at *
    generalize (-(e - b + s + 1)) % (-s) = r at *
    refine ⟨q.toNat, ?_, ?_⟩
    · rw [min_eq_right (mul_nonpos_of_nonpos_of_nonneg hs.le hq), Int.toNat_of_nonneg hq]
    · intro k
      have hk : ((k : ℤ) < q.toNat) ↔ (k : ℤ) < q := by rw [Int.toNat_of_nonneg hq]
      rw [← Int.ofNat_lt, hk]
      constructor
      · intro h
        have : (-s) * ((k : ℤ) + 1) ≤ (-s) * q := by
          apply mul_le_mul_of_nonneg_left _ (by omega); omega
        nlinarith
      · intro h
        by_contra hc
        have : (-s) * q ≤ (-s) * (k : ℤ) := by
          apply mul_le_mul_of_nonneg_left _ (by omega); omega
        nlinarith
  · have hq : (e - b + s + 1).tdiv s ≤ 0 := Int.tdiv_nonpos (by omega) hs.le
    refine ⟨0, ?_, ?_⟩
    · rw [min_eq_left (mul_nonneg_of_nonpos_of_nonpos hs.le hq)]; simp
    · intro k
      have : (k : ℤ) * s ≤ 0 := mul_nonpos_of_nonneg_of_nonpos (by omega) hs.le
      constructor
      · intro h; omega
      · intro h; omega

/-- The value held by `end()` is `b + s * n` for the number `n` of terms
strictly before `e` in the direction of `s`. -/
theorem end_value_spec (b e s : Int) (hs : s ≠ 0) :
    ∃ n : ℕ, (xrange.end_ ⟨b, e, s⟩).value = b + s * n ∧
      ∀ k : ℕ, k < n ↔ before s e (b + k * s) := by
  rcases lt_or_gt_of_ne hs with h | h
  · obtain ⟨n, h1, h2⟩ := end_value_neg b e s h
    refine ⟨n, h1, fun k => ?_⟩
    rw [h2 k]; unfold before
    constructor
    · intro hk; exact Or.inr ⟨h, hk⟩
    · rintro (⟨h0, _⟩ | ⟨_, hk⟩)
      · omega
      · exact hk
  · obtain ⟨n, h1, h2⟩ := end_value_pos b e s h
    refine ⟨n, h1, fun k => ?_⟩
    rw [h2 k]; unfold before
    constructor
    · intro hk; exact Or.inl ⟨h, hk⟩
    · rintro (⟨_, hk⟩ | ⟨h0, _⟩)
      · exact hk
      · omega

theorem len_xrange_of_end (b e s : Int) (hs : s ≠ 0) (n : ℕ)
    (h : (xrange.end_ ⟨b, e, s⟩).value = b + s * n) : len_xrange ⟨b, e, s⟩ = n := by
  have hstep : (xrange.end_ ⟨b, e, s⟩).step = s := by
    unfold xrange.end_; split <;> rfl
  unfold len_xrange xrange_iterator.sub
  rw [hstep, h]
  simp only [xrange.begin]
  rw [show b + s * (n : ℤ) - b = s * n by ring]
  exact Int.mul_tdiv_cancel_left _ hs

/-- The length of an `xrange` together with its characterisation. -/
theorem len_xrange_spec (b e s : Int) (hs : s ≠ 0) :
    ∃ n : ℕ, len_xrange ⟨b, e, s⟩ = n ∧ (xrange.end_ ⟨b, e, s⟩).value = b + s * n ∧
      ∀ k : ℕ, k < n ↔ before s e (b + k * s) := by
  obtain ⟨n, h1, h2⟩ := end_value_spec b e s hs
  exact ⟨n, len_xrange_of_end b e s hs n h1, h1, h2⟩

/-- C1: for a nonzero step, `len(xrange(b, e, s))`, computed as
`(end().value - begin().value) / step`, is the number of naturals `k` whose
term `b + k * s` lies strictly before `e` in the direction of `s`. -/
theorem len_xrange_eq_count (b e s : Int) (hs : s ≠ 0) :
    len_xrange ⟨b, e, s⟩ = (Set.ncard {k : ℕ | before s e (b + k * s)} : ℤ) := by
  obtain ⟨n, h1, _, h3⟩ := len_xrange_spec b e s hs
  have hset : {k : ℕ | before s e (b + k * s)} = ((Finset.range n : Finset ℕ) : Set ℕ) := by
    ext k
    simp only [Set.mem_setOf_eq, Finset.coe_range, Set.mem_Iio]
    exact (h3 k).symm
  rw [h1, hset, Set.ncard_coe_Finset, Finset.card_range]

theorem len_xrange_eq_count_witness :
    (5 : Int) ≠ 0 ∧ len_xrange ⟨2, 14, 5⟩ = 3 ∧
      len_xrange ⟨2, 14, 5⟩ = (Set.ncard {k : ℕ | before 5 14 (2 + k * 5)} : ℤ) :=
  ⟨by decide, by decide, len_xrange_eq_count 2 14 5 (by decide)⟩

/-! ## Lemmas on `range` -/

theorem progression_length (v s : Int) (n : Nat) : (progression v s n).length = n := by
  induction n generalizing v with
  | zero => rfl
  | succ n ih => simp [progression, ih]

theorem progression_getElem (v s : Int) (n i : Nat) (h : i < (progression v s n).length) :
    (progression v s n)[i] = v + i * s := by
  induction n generalizing v i with
  | zero => simp [progression] at h
  | succ n ih =>
    cases i with
    | zero => simp [progression]
    | succ i =>
      simp only [progression, List.getElem_cons_succ]
      rw [ih]; push_cast; ring

theorem copy_xrange_progression (s t : Int) (hs : s ≠ 0) (dst : List Int) (v : Int) :
    copy_xrange ⟨v + s * dst.length, t⟩ ⟨v, s⟩ dst = some (progression v s dst.length) := by
  induction dst generalizing v with
  | nil => simp [copy_xrange, xrange_iterator.ne, progression]
  | cons x rest ih =>
    have hne : v ≠ v + s * ((rest.length : ℤ) + 1) := by
      intro h
      have h0 : s * ((rest.length : ℤ) + 1) = 0 := by linarith
      rcases mul_eq_zero.mp h0 with h1 | h1
      · exact hs h1
      · omega
    have hlast : v + s * ((rest.length : ℤ) + 1) = (v + s) + s * rest.length := by ring
    simp only [copy_xrange, xrange_iterator.ne, xrange_iterator.incr, xrange_iterator.deref,
      List.length_cons, Nat.cast_add, Nat.cast_one, bne_iff_ne, ne_eq, hne, not_false_eq_true,
      if_true, progression]
    rw [hlast, ih (v + s)]
    rfl

/-- The list built by `range(b, e, s)` is the progression of `len(xrange(b, e, s))` terms. -/
theorem range_eq_progression (b e s : Int) (hs : s ≠ 0) :
    ∃ n : ℕ, len_xrange ⟨b, e, s⟩ = n ∧ range b e s = some (progression b s n) ∧
      ∀ k : ℕ, k < n ↔ before s e (b + k * s) := by
  obtain ⟨n, h1, h2, h3⟩ := len_xrange_spec b e s hs
  refine ⟨n, h1, ?_, h3⟩
  have hstep : (xrange.end_ ⟨b, e, s⟩) = ⟨b + s * n, s⟩ := by
    have : (xrange.end_ ⟨b, e, s⟩).step = s := by unfold xrange.end_; split <;> rfl
    cases hx : xrange.end_ ⟨b, e, s⟩ with
    | mk v t => rw [hx] at h2 this; simp only at h2 this; rw [h2, this]
  have hlen : ¬ (len_xrange ⟨b, e, s⟩ < 0) := by rw [h1]; omega
  unfold range _range
  rw [if_neg hlen, h1, hstep, Int.toNat_ofNat]
  have := copy_xrange_progression s s hs (List.replicate n 0) b
  rw [List.length_replicate] at this
  exact this

/-- C2: for a nonzero step, `range(b, e, s)` is the list of length
`len(xrange(b, e, s))` whose `i`-th element is `b + i * s`; every element lies
strictly before `e` in the direction of `s` and the term after the last does not;
`range(e)` is `range(0, e, 1)`; and `range(5, 0, -2)` is `[5, 3, 1]`. -/
theorem range_spec (b e s : Int) (hs : s ≠ 0) :
    (∃ l : List Int, range b e s = some l ∧ (l.length : ℤ) = len_xrange ⟨b, e, s⟩ ∧
      (∀ (i : ℕ) (h : i < l.length), l[i] = b + i * s) ∧
      (∀ x ∈ l, before s e x) ∧ ¬ before s e (b + l.length * s)) ∧
    range1 e = range 0 e 1 ∧ range 5 0 (-2) = some [5, 3, 1] := by
  refine ⟨?_, rfl, by decide⟩
  obtain ⟨n, h1, h2, h3⟩ := range_eq_progression b e s hs
  refine ⟨progression b s n, h2, ?_, ?_, ?_, ?_⟩
  · rw [progression_length, h1]
  · intro i h; exact progression_getElem b s n i h
  · intro x hx
    obtain ⟨i, hi, rfl⟩ := List.getElem_of_mem hx
    rw [progression_getElem]
    rw [progression_length] at hi
    exact (h3 i).mp hi
  · rw [progression_length]
    intro h
    exact absurd ((h3 n).mpr h) (lt_irrefl n)

theorem range_spec_witness :
    (∃ l : List Int, range 0 10 3 = some l ∧ (l.length : ℤ) = len_xrange ⟨0, 10, 3⟩ ∧
      (∀ (i : ℕ) (h : i < l.length), l[i] = 0 + i * 3) ∧
      (∀ x ∈ l, before 3 10 x) ∧ ¬ before 3 10 (0 + l.length * 3)) ∧
    range1 10 = range 0 10 1 ∧ range 5 0 (-2) = some [5, 3, 1] :=
  range_spec 0 10 3 (by decide)

/-! ## Theorems on `sorted` -/

section SortingThms
variable {α : Type}

theorem sort_insert_perm (lt : α → α → Bool) (x : α) (l : List α) :
    List.Perm (sort_insert lt x l) (x :: l) := by
  induction l with
  | nil => exact List.Perm.refl _
  | cons y ys ih =>
    unfold sort_insert
    split
    · exact List.Perm.refl _
    · exact (List.Perm.cons y ih).trans (List.Perm.swap x y ys)

theorem std_sort_perm (lt : α → α → Bool) (l : List α) : List.Perm (std_sort lt l) l := by
  induction l with
  | nil => exact List.Perm.refl _
  | cons x xs ih =>
    unfold std_sort
    exact (sort_insert_perm lt x _).trans (List.Perm.cons x ih)

variable [LinearOrder α]

theorem sort_insert_sorted (x : α) (l : List α) (h : List.Sorted (· ≤ ·) l) :
    List.Sorted (· ≤ ·) (sort_insert (fun a b => decide (a < b)) x l) := by
  induction l with
  | nil => simp [sort_insert]
  | cons y ys ih =>
    unfold sort_insert
    have hy := List.rel_of_sorted_cons h
    have hys := List.Sorted.of_cons h
    by_cases hxy : x < y
    · simp only [hxy, decide_True, if_true]
      refine List.sorted_cons.mpr ⟨?_, h⟩
      intro b hb
      rcases List.mem_cons.mp hb with rfl | hb
      · exact hxy.le
      · exact hxy.le.trans (hy b hb)
    · simp only [hxy, decide_False, Bool.false_eq_true, if_false]
      refine List.sorted_cons.mpr ⟨?_, ih hys⟩
      intro b hb
      have hb' := (sort_insert_perm _ x ys).subset hb
      rcases List.mem_cons.mp hb' with rfl | hb'
      · exact not_lt.mp hxy
      · exact hy b hb'

theorem std_sort_sorted (l : List α) :
    List.Sorted (· ≤ ·) (std_sort (fun a b => decide (a < b)) l) := by
  induction l with
  | nil => simp [std_sort]
  | cons x xs ih => unfold std_sort; exact sort_insert_sorted x _ ih

/-- C3: on a totally ordered element type, `sorted(seq)` is in non-decreasing
order and is a permutation of `seq`, `seq` itself is unchanged by the run, and
`sorted([3, 1, 4, 1, 5, 9, 2, 6])` is `[1, 1, 2, 3, 4, 5, 6, 9]`. -/
theorem sorted_spec (seq : List α) :
    List.Sorted (· ≤ ·) (sorted seq) ∧ List.Perm (sorted seq) seq ∧
      (sorted_run seq).1 = seq ∧
      sorted ([3, 1, 4, 1, 5, 9, 2, 6] : List Int) = [1, 1, 2, 3, 4, 5, 6, 9] :=
  ⟨std_sort_sorted seq, std_sort_perm _ seq, rfl, by decide⟩

end SortingThms

/-- C4 (evaluation): `sorted([2, 1], <)` returns the unsorted copy `[2, 1]`, in
which the later element `1` is before the earlier element `2`; the sorted list
`[1, 2]` is what the run leaves in `seq`. -/
theorem sorted_cmp_returns_copy :
    sorted_cmp (fun a b : Int => decide (a < b)) [2, 1] = [2, 1] ∧
      (sorted_cmp_run (fun a b : Int => decide (a < b)) [2, 1]).1 = [1, 2] ∧
      ¬ List.Pairwise (fun a b : Int => ¬ b < a)
        (sorted_cmp (fun a b : Int => decide (a < b)) [2, 1]) := by
  decide

/-! ## Theorems on `max` and `min` -/

/-- C5 (evaluation): `min(1, 2, 3)` returns `2`, whereas the binary `min` of `1`
and `min(2, 3)` is `1`. -/
theorem Min_three_returns_greater :
    Min long_gt 1 [2, 3] = 2 ∧ Min2 long_gt 1 (Min long_gt 2 [3]) = 1 := by
  decide

/-- C6 (as stated, refuted): for the pairs `(1, 0)` and `(1, 1)`, which compare
equal by their first component, binary `max` does not return the first argument
and binary `min` does not return the second. -/
theorem Max2_Min2_tie_counterexample :
    key_gt (1, 0) (1, 1) = false ∧ key_gt (1, 1) (1, 0) = false ∧
      ((1, 0) : Nat × Nat) ≠ (1, 1) ∧
      Max2 key_gt (1, 0) (1, 1) ≠ (1, 0) ∧ Min2 key_gt (1, 0) (1, 1) ≠ (1, 1) := by
  decide

/-- C6 (amended): for all values `a` and `b` that compare equal (neither `a > b`
nor `b > a`), binary `max(a, b)` returns the second argument `b` and binary
`min(a, b)` returns the first argument `a`. -/
theorem Max2_Min2_tie {α : Type} (gt : α → α → Bool) (a b : α)
    (hab : gt a b = false) (_hba : gt b a = false) :
    Max2 gt a b = b ∧ Min2 gt a b = a := by
  simp [Max2, Min2, hab]

theorem Max2_Min2_tie_witness :
    key_gt (1, 0) (1, 1) = false ∧ key_gt (1, 1) (1, 0) = false ∧
      Max2 key_gt (1, 0) (1, 1) = (1, 1) ∧ Min2 key_gt (1, 0) (1, 1) = (1, 0) :=
  ⟨by decide, by decide, Max2_Min2_tie key_gt (1, 0) (1, 1) (by decide) (by decide)⟩

/-! ## Theorems on `reduce` -/

theorem accumulate_eq_foldl {α β : Type} (op : β → α → β) (s : List α) (init : β) :
    accumulate op s init = List.foldl op init s := by
  induction s generalizing init with
  | nil => rfl
  | cons x rest ih => simp [accumulate, ih]

/-- For an operator whose result has the element type (no conversion takes
place), `reduce(op, x :: xs)` is `reduce(op, xs, x)`, the left fold of `op` over
`xs` from `x`, and `reduce(op, [x])` is `x` whatever `op` is. -/
theorem reduce_closed_op {α : Type} (op op2 : α → α → α) (x : α) (xs : List α) :
    reduce id id op (x :: xs) = some (reduce_init op xs x) ∧
      reduce_init op xs x = List.foldl op x xs ∧
      reduce id id op [x] = some x ∧ reduce id id op [x] = reduce id id op2 [x] := by
  refine ⟨?_, accumulate_eq_foldl op xs x, rfl, rfl⟩
  cases xs with
  | nil => rfl
  | cons y ys => simp [reduce, reduce_init]

/-- C7 (evaluation): on the list `{200, 100}` of `unsigned char` with the `int`
addition `[](int a, int b) { return a + b; }`, `reduce(op, s)` accumulates in
`unsigned char` and returns `44`, whereas `reduce(op, {100}, 200)`, which
accumulates in `int`, and the left fold both give `300`; on `{200, 100, 1}` the
values are `45` and `301`. -/
theorem reduce_truncates_to_element_type :
    reduce to_unsigned_char int_of_unsigned_char int_plus [200, 100] = some 44 ∧
      reduce_init int_plus [100] (int_of_unsigned_char 200) = 300 ∧
      List.foldl int_plus 200 [100] = 300 ∧
      reduce to_unsigned_char int_of_unsigned_char int_plus [200, 100, 1] = some 45 ∧
      reduce_init int_plus [100, 1] (int_of_unsigned_char 200) = 301 := by
  decide

/-! ## Theorems on `map`, `filter`, `zip` -/

theorem _map_eq_zipWith {α β γ : Type} (op : α → β → γ) (s0 : List α) (s1 : List β)
    (h : s0.length ≤ s1.length) : _map op s0 s1 = some (List.zipWith op s0 s1) := by
  induction s0 generalizing s1 with
  | nil => simp [_map]
  | cons a s ih =>
    cases s1 with
    | nil => simp at h
    | cons b t =>
      have ht : s.length ≤ t.length := by simpa using h
      simp [_map, ih t ht]

/-- C8: when `len(s1) ≥ len(s0)`, `map(op, s0, s1)` is a list of length
`len(s0)` whose `i`-th element is `op(s0[i], s1[i])`; a sequence that agrees
with `s1` on its first `len(s0)` elements gives the same result; and
`map(+, [1, 2, 3], [10, 20, 30])` is `[11, 22, 33]`. -/
theorem map_spec {α β γ : Type} (op : α → β → γ) (s0 : List α) (s1 : List β)
    (h : s0.length ≤ s1.length) :
    (∃ r : List γ, map op s0 s1 = some r ∧ r.length = s0.length ∧
      (∀ (i : ℕ) (h0 : i < s0.length) (h1 : i < s1.length) (hr : i < r.length),
        r[i] = op s0[i] s1[i]) ∧
      (∀ t : List β, t.take s0.length = s1.take s0.length → map op s0 t = some r)) ∧
    map (fun a b : Int => a + b) [1, 2, 3] [10, 20, 30] = some [11, 22, 33] := by
  refine ⟨⟨List.zipWith op s0 s1, _map_eq_zipWith op s0 s1 h, ?_, ?_, ?_⟩, by decide⟩
  · simp [List.length_zipWith, h]
  · intro i h0 h1 hr
    simp [List.getElem_zipWith]
  · intro t ht
    have hlen : s0.length ≤ t.length := by
      have := congrArg List.length ht
      simp only [List.length_take] at this
      omega
    unfold map
    rw [_map_eq_zipWith op s0 t hlen]
    congr 1
    apply List.ext_getElem
    · simp [List.length_zipWith, h, hlen]
    · intro i hi1 hi2
      simp only [List.length_zipWith] at hi1
      have e1 : (t.take s0.length)[i]? = (s1.take s0.length)[i]? := by rw [ht]
      have hi0 : i < s0.length := by omega
      rw [List.getElem?_take_of_lt hi0, List.getElem?_take_of_lt hi0] at e1
      rw [List.getElem?_eq_getElem (by omega), List.getElem?_eq_getElem (by omega)] at e1
      simp only [List.getElem_zipWith]
      rw [Option.some.inj e1]

theorem map_spec_witness :
    (∃ r : List Int, map (fun a b : Int => a * b) [1, 2] [3, 4, 5] = some r ∧
      r.length = [(1 : Int), 2].length ∧
      (∀ (i : ℕ) (h0 : i < [(1 : Int), 2].length) (h1 : i < [(3 : Int), 4, 5].length)
        (hr : i < r.length), r[i] = (fun a b : Int => a * b) [(1 : Int), 2][i] [(3 : Int), 4, 5][i]) ∧
      (∀ t : List Int, t.take [(1 : Int), 2].length = [(3 : Int), 4, 5].take [(1 : Int), 2].length →
        map (fun a b : Int => a * b) [1, 2] t = some r)) ∧
    map (fun a b : Int => a + b) [1, 2, 3] [10, 20, 30] = some [11, 22, 33] :=
  map_spec (fun a b : Int => a * b) [1, 2] [3, 4, 5] (by decide)

theorem copy_if_eq {α : Type} (f : α → Bool) (s out : List α) :
    copy_if f s out = out ++ List.filter f s := by
  induction s generalizing out with
  | nil => simp [copy_if]
  | cons x rest ih =>
    unfold copy_if
    by_cases hx : f x = true
    · simp [hx, ih]
    · simp [hx, ih]

/-- C9: `filter(f, s)` is exactly the subsequence of `s` of the elements
satisfying `f`: it is a sublist of `s` (original relative order), each of its
elements satisfies `f`, and every value satisfying `f` occurs in it as many
times as in `s`. -/
theorem filter_spec {α : Type} [DecidableEq α] (f : α → Bool) (s : List α) :
    filter f s = List.filter f s ∧ List.Sublist (filter f s) s ∧
      (∀ x ∈ filter f s, f x = true) ∧
      (∀ x, f x = true → List.count x (filter f s) = List.count x s) := by
  have h : filter f s = List.filter f s := by simp [filter, copy_if_eq]
  rw [h]
  refine ⟨rfl, List.filter_sublist s, ?_, ?_⟩
  · intro x hx; exact (List.mem_filter.mp hx).2
  · intro x hx
    rw [List.count_filter hx]

theorem _zip_eq_zip {α β : Type} (s0 : List α) (s1 : List β)
    (h : s0.length ≤ s1.length) : _zip s0 s1 = some (List.zip s0 s1) := by
  induction s0 generalizing s1 with
  | nil => simp [_zip]
  | cons a s ih =>
    cases s1 with
    | nil => simp at h
    | cons b t =>
      have ht : s.length ≤ t.length := by simpa using h
      simp [_zip, ih t ht]

/-- C10: when `len(s1) ≥ len(s0)`, `zip(s0, s1)` is a list of length `len(s0)`
whose `i`-th element is the pair `(s0[i], s1[i])`; `zip()` is the empty list;
and `zip([1, 2, 3], ["a", "b", "c"])` is `[(1, "a"), (2, "b"), (3, "c")]`. -/
theorem zip_spec {α β : Type} (s0 : List α) (s1 : List β) (h : s0.length ≤ s1.length) :
    (∃ r : List (α × β), zip s0 s1 = some r ∧ r.length = s0.length ∧
      (∀ (i : ℕ) (h0 : i < s0.length) (h1 : i < s1.length) (hr : i < r.length),
        r[i] = (s0[i], s1[i]))) ∧
    (zip0.toList : List (α × β)) = [] ∧
    zip [(1 : Int), 2, 3] ["a", "b", "c"] = some [(1, "a"), (2, "b"), (3, "c")] := by
  refine ⟨⟨List.zip s0 s1, _zip_eq_zip s0 s1 h, ?_, ?_⟩, rfl, by decide⟩
  · simp [List.length_zip, h]
  · intro i h0 h1 hr
    simp [List.getElem_zip]

theorem zip_spec_witness :
    (∃ r : List (Int × Bool), zip [(7 : Int), 8] [true, false, true] = some r ∧
      r.length = [(7 : Int), 8].length ∧
      (∀ (i : ℕ) (h0 : i < [(7 : Int), 8].length) (h1 : i < [true, false, true].length)
        (hr : i < r.length), r[i] = ([(7 : Int), 8][i], [true, false, true][i]))) ∧
    (zip0.toList : List (Int × Bool)) = [] ∧
    zip [(1 : Int), 2, 3] ["a", "b", "c"] = some [(1, "a"), (2, "b"), (3, "c")] :=
  zip_spec [(7 : Int), 8] [true, false, true] (by decide)

/-! ## Theorems on `enumerate` -/

theorem enumerate_traverse_spec {α : Type} (l : List α) (v : Int) (t : List α) (fuel : ℕ)
    (hf : l.length ≤ fuel) :
    enumerate_traverse ⟨v + l.length, t⟩ fuel ⟨v, l⟩ = some (indexed v l) := by
  induction l generalizing v fuel with
  | nil =>
    cases fuel <;> simp [enumerate_traverse, enumerate_iterator.ne, indexed]
  | cons x rest ih =>
    obtain ⟨f, rfl⟩ : ∃ f, fuel = f + 1 := ⟨fuel - 1, by simp at hf; omega⟩
    have hne : v ≠ v + ((rest.length : ℤ) + 1) := by omega
    have hlast : v + ((rest.length : ℤ) + 1) = (v + 1) + rest.length := by ring
    simp only [enumerate_traverse, enumerate_iterator.ne, enumerate_iterator.deref,
      enumerate_iterator.incr, List.tail_cons, List.length_cons, Nat.cast_add,
      Nat.cast_one, bne_iff_ne, ne_eq, hne, not_false_eq_true, if_true]
    rw [hlast, ih (v + 1) f (by simp at hf; omega)]
    rfl

theorem indexed_length {α : Type} (l : List α) (v : Int) : (indexed v l).length = l.length := by
  induction l generalizing v with
  | nil => rfl
  | cons x rest ih => simp [indexed, ih]

theorem indexed_getElem {α : Type} (l : List α) (v : Int) (i : ℕ) (hi : i < l.length)
    (hr : i < (indexed v l).length) : (indexed v l)[i] = (v + (i : ℤ), l[i]) := by
  induction l generalizing v i with
  | nil => simp at hi
  | cons x rest ih =>
    cases i with
    | zero => simp [indexed]
    | succ i =>
      simp only [indexed, List.getElem_cons_succ]
      rw [ih (v + 1) i (by simpa using hi), Prod.mk.injEq]
      exact ⟨by push_cast; ring, rfl⟩

/-- C11: traversing `enumerate(L)` from `begin()` to `end()` ends and yields
exactly `len(L)` pairs, the `i`-th pair being `(i, L[i])`; `enumerate([10, 20, 30])`
yields `[(0, 10), (1, 20), (2, 30)]`. -/
theorem enumerate_spec {α : Type} (L : List α) :
    (∃ r : List (Int × α),
      (∀ fuel : ℕ, L.length ≤ fuel → enumerate_pairs fuel (enumerate L) = some r) ∧
      r.length = L.length ∧
      ∀ (i : ℕ) (hi : i < L.length) (hr : i < r.length), r[i] = ((i : ℤ), L[i])) ∧
    enumerate_pairs 3 (enumerate [(10 : Int), 20, 30]) = some [(0, 10), (1, 20), (2, 30)] := by
  refine ⟨⟨indexed 0 L, ?_, indexed_length L 0, ?_⟩, by decide⟩
  · intro fuel hf
    have h := enumerate_traverse_spec L 0 [] fuel hf
    simp only [zero_add] at h
    exact h
  · intro i hi hr
    rw [indexed_getElem L 0 i hi hr, zero_add]

/-! ## Theorems on `sum` and `divmod` -/

theorem accumulate_add_progression (v s : Int) (n : ℕ) (init : Int) :
    2 * accumulate (fun acc x => acc + x) (progression v s n) init =
      2 * init + 2 * n * v + s * n * (n - 1) := by
  induction n generalizing v init with
  | zero => simp [progression, accumulate]
  | succ n ih =>
    simp only [progression, accumulate]
    rw [ih]
    push_cast
    ring

theorem range_upto (n : Int) (hn : 0 ≤ n) :
    range 0 (n + 1) 1 = some (progression 0 1 (n + 1).toNat) := by
  obtain ⟨m, _, h2, h3⟩ := range_eq_progression 0 (n + 1) 1 (by decide)
  have hm : m = (n + 1).toNat := by
    have hA := h3 m
    have hB := h3 (m - 1)
    have hC := h3 n.toNat
    unfold before at hA hB hC
    have hn1 : ((n.toNat : ℕ) : ℤ) = n := Int.toNat_of_nonneg hn
    rcases Nat.eq_zero_or_pos m with h0 | h0
    · subst h0
      exfalso
      have : (0 < (1 : ℤ) ∧ 0 + ((n.toNat : ℕ) : ℤ) * 1 < n + 1) ∨
          ((1 : ℤ) < 0 ∧ n + 1 < 0 + ((n.toNat : ℕ) : ℤ) * 1) := Or.inl ⟨by decide, by omega⟩
      have := hC.mpr this
      omega
    · have hB1 := hB.mp (by omega)
      have hA1 : ¬ ((0 < (1 : ℤ) ∧ 0 + (m : ℤ) * 1 < n + 1) ∨
          ((1 : ℤ) < 0 ∧ n + 1 < 0 + (m : ℤ) * 1)) := fun h => by
        have := hA.mpr h
        omega
      have hcast : ((m - 1 : ℕ) : ℤ) = (m : ℤ) - 1 := by omega
      rw [hcast] at hB1
      have h1 : ¬ ((m : ℤ) < n + 1) := fun h => hA1 (Or.inl ⟨by decide, by omega⟩)
      have h2 : (m : ℤ) - 1 < n + 1 := by
        rcases hB1 with ⟨_, h⟩ | ⟨h, _⟩
        · omega
        · omega
      omega
  rw [h2, hm]

/-- C12: for every integer `n ≥ 0`, `sum(range(0, n + 1))` is `n * (n + 1) / 2`,
where `sum(s)` is `sum(s, 0)` accumulated with `+`; `sum(range(10))` is `45`. -/
theorem sum_range (n : Int) (hn : 0 ≤ n) :
    (range 0 (n + 1) 1).map sum = some (n * (n + 1) / 2) ∧
      (range1 10).map sum = some 45 := by
  refine ⟨?_, by decide⟩
  rw [range_upto n hn, Option.map_some']
  congr 1
  have h := accumulate_add_progression 0 1 (n + 1).toNat 0
  have hc : (((n + 1).toNat : ℕ) : ℤ) = n + 1 := Int.toNat_of_nonneg (by omega)
  rw [hc] at h
  have h2 : 2 * sum (progression 0 1 (n + 1).toNat) = n * (n + 1) := by
    unfold sum sum_init
    rw [h]; ring
  generalize sum (progression 0 1 (n + 1).toNat) = S at h2
  generalize n * (n + 1) = P at h2
  omega

theorem sum_range_witness :
    (0 : Int) ≤ 4 ∧ (range 0 (4 + 1) 1).map sum = some (4 * (4 + 1) / 2) ∧
      (range1 10).map sum = some 45 :=
  ⟨by decide, sum_range 4 (by decide)⟩

/-- C13: for all integers `a` and `b ≠ 0`, `divmod(a, b)` returns a pair
`(q, r)` with `a = q * b + r`; `divmod(7, 3)` is `(2, 1)`. -/
theorem divmod_spec (a b : Int) (hb : b ≠ 0) :
    (∃ q r : Int, divmod a b = some (q, r) ∧ a = q * b + r) ∧
      divmod 7 3 = some (2, 1) := by
  refine ⟨⟨a.tdiv b, a.tmod b, ?_, (Int.tdiv_add_tmod' a b).symm⟩, by decide⟩
  simp [divmod, hb]

theorem divmod_spec_witness :
    (∃ q r : Int, divmod (-7) 2 = some (q, r) ∧ (-7 : Int) = q * 2 + r) ∧
      divmod 7 3 = some (2, 1) :=
  divmod_spec (-7) 2 (by decide)

/-! ## Theorems on `all` and `any` -/

theorem all_map1_iff {α : Type} (p : α → Bool) (s : List α) :
    all id (map1 p s) = true ↔ ∀ x ∈ s, p x = true := by
  induction s with
  | nil => simp [all, map1, find_if]
  | cons x rest ih =>
    unfold all at ih ⊢
    simp only [map1, find_if, id]
    cases hx : p x
    · simp [hx]
    · simp only [Bool.not_true, Bool.false_eq_true, if_false, List.mem_cons, forall_eq_or_imp,
        hx, true_and]
      exact ih

theorem any_map1_iff {α : Type} (p : α → Bool) (s : List α) :
    any id (map1 p s) = true ↔ ∃ x ∈ s, p x = true := by
  induction s with
  | nil => simp [any, map1, find_if]
  | cons x rest ih =>
    unfold any at ih ⊢
    simp only [map1, find_if, id]
    cases hx : p x
    · simp only [Bool.false_eq_true, if_false, List.mem_cons, exists_eq_or_imp, hx, false_or]
      exact ih
    · simp [hx]

/-- C14: for every list `s` and boolean predicate `p`, `all(map(p, s))` holds
if and only if `any(map(not ∘ p, s))` does not; `all` of the empty list is true
and `any` of the empty list is false. -/
theorem all_iff_not_any {α : Type} (p : α → Bool) (s : List α) :
    (all id (map1 p s) = true ↔ ¬ any id (map1 (fun x => !p x) s) = true) ∧
      all id ([] : List Bool) = true ∧ any id ([] : List Bool) = false := by
  refine ⟨?_, rfl, rfl⟩
  rw [all_map1_iff, any_map1_iff]
  simp

/-! ## Idempotence of `sorted` -/

/-- C16: on a totally ordered element type, `sorted(sorted(L))` equals
`sorted(L)`. -/
theorem sorted_idempotent {α : Type} [LinearOrder α] (L : List α) :
    sorted (sorted L) = sorted L :=
  List.eq_of_perm_of_sorted (std_sort_perm _ (sorted L)) (std_sort_sorted (sorted L))
    (std_sort_sorted L)

/-! ## Theorems on the traversal of `xrange` -/

theorem xrange_traverse_progression (t u : Int) (ht : t ≠ 0) (n : ℕ) (v : Int) (fuel : ℕ)
    (hf : n ≤ fuel) :
    xrange_traverse ⟨v + t * n, u⟩ fuel ⟨v, t⟩ = some (progression v t n) := by
  induction n generalizing v fuel with
  | zero =>
    cases fuel <;> simp [xrange_traverse, xrange_iterator.ne, progression]
  | succ n ih =>
    obtain ⟨f, rfl⟩ : ∃ f, fuel = f + 1 := ⟨fuel - 1, by omega⟩
    have hne : v ≠ v + t * ((n : ℤ) + 1) := by
      intro h
      have h0 : t * ((n : ℤ) + 1) = 0 := by linarith
      rcases mul_eq_zero.mp h0 with h1 | h1
      · exact ht h1
      · omega
    have hlast : v + t * ((n : ℤ) + 1) = (v + t) + t * n := by ring
    simp only [xrange_traverse, xrange_iterator.ne, xrange_iterator.incr,
      xrange_iterator.deref, Nat.cast_add, Nat.cast_one, bne_iff_ne, ne_eq, hne,
      not_false_eq_true, if_true, progression]
    rw [hlast, ih (v + t) f (by omega)]
    rfl

theorem xrange_traverse_short (t u : Int) (ht : t ≠ 0) (n : ℕ) (v : Int) (fuel : ℕ)
    (hf : fuel < n) : xrange_traverse ⟨v + t * n, u⟩ fuel ⟨v, t⟩ = none := by
  induction fuel generalizing v n with
  | zero =>
    have hne : v ≠ v + t * (n : ℤ) := by
      intro h
      have h0 : t * (n : ℤ) = 0 := by linarith
      rcases mul_eq_zero.mp h0 with h1 | h1
      · exact ht h1
      · omega
    simp [xrange_traverse, xrange_iterator.ne, hne]
  | succ f ih =>
    obtain ⟨m, rfl⟩ : ∃ m, n = m + 1 := ⟨n - 1, by omega⟩
    have hne : v ≠ v + t * ((m : ℤ) + 1) := by
      intro h
      have h0 : t * ((m : ℤ) + 1) = 0 := by linarith
      rcases mul_eq_zero.mp h0 with h1 | h1
      · exact ht h1
      · omega
    have hlast : v + t * ((m : ℤ) + 1) = (v + t) + t * m := by ring
    simp only [xrange_traverse, xrange_iterator.ne, xrange_iterator.incr,
      xrange_iterator.deref, Nat.cast_add, Nat.cast_one, bne_iff_ne, ne_eq, hne,
      not_false_eq_true, if_true]
    rw [hlast, ih m (v + t) (by omega)]
    rfl

theorem end_eq_of_value (b e s : Int) (n : ℕ)
    (h : (xrange.end_ ⟨b, e, s⟩).value = b + s * n) : xrange.end_ ⟨b, e, s⟩ = ⟨b + s * n, s⟩ := by
  have hstep : (xrange.end_ ⟨b, e, s⟩).step = s := by unfold xrange.end_; split <;> rfl
  cases hx : xrange.end_ ⟨b, e, s⟩ with
  | mk v t => rw [hx] at h hstep; simp only at h hstep; rw [h, hstep]

/-- C17: when `e` is not strictly beyond `b` in the direction of the nonzero
step `s`, `begin()` and `end()` hold the same value and the traversal yields no
element; `xrange(0)`, `xrange(5, 5)`, `xrange(5, 0, 1)` and `xrange(0, 5, -1)` are
all empty. -/
theorem xrange_empty (b e s : Int) (hs : s ≠ 0) (hdir : (0 < s → e ≤ b) ∧ (s < 0 → b ≤ e)) :
    ((xrange.begin ⟨b, e, s⟩).value = (xrange.end_ ⟨b, e, s⟩).value ∧
      ∀ fuel : ℕ, list_xrange fuel ⟨b, e, s⟩ = some []) ∧
    list_xrange 0 (xrange.ofEnd 0) = some [] ∧ list_xrange 0 ⟨5, 5, 1⟩ = some [] ∧
      list_xrange 0 ⟨5, 0, 1⟩ = some [] ∧ list_xrange 0 ⟨0, 5, -1⟩ = some [] := by
  refine ⟨?_, by decide, by decide, by decide, by decide⟩
  obtain ⟨n, h1, h2⟩ := end_value_spec b e s hs
  have hn : n = 0 := by
    rcases Nat.eq_zero_or_pos n with h0 | h0
    · exact h0
    · exfalso
      have hb := (h2 0).mp h0
      unfold before at hb
      simp only [Nat.cast_zero, zero_mul, add_zero] at hb
      rcases hb with ⟨hp, hlt⟩ | ⟨hp, hlt⟩
      · have := hdir.1 hp; omega
      · have := hdir.2 hp; omega
  subst hn
  have hend := end_eq_of_value b e s 0 h1
  refine ⟨?_, fun fuel => ?_⟩
  · rw [h1]; simp [xrange.begin]
  · unfold list_xrange
    rw [hend]
    exact xrange_traverse_progression s s hs 0 b fuel (Nat.zero_le _)

theorem xrange_empty_witness :
    ((xrange.begin ⟨7, 3, 2⟩).value = (xrange.end_ ⟨7, 3, 2⟩).value ∧
      ∀ fuel : ℕ, list_xrange fuel ⟨7, 3, 2⟩ = some []) ∧
    list_xrange 0 (xrange.ofEnd 0) = some [] ∧ list_xrange 0 ⟨5, 5, 1⟩ = some [] ∧
      list_xrange 0 ⟨5, 0, 1⟩ = some [] ∧ list_xrange 0 ⟨0, 5, -1⟩ = some [] :=
  xrange_empty 7 3 2 (by decide) ⟨fun _ => by decide, fun h => absurd h (by decide)⟩

/-- C20: for a nonzero step, `end()` holds `b + n * s` for
`n = len(xrange(b, e, s)) ≥ 0`; the forward traversal from `begin()` ends, given
at least `n` increments, after yielding the `n` terms of the progression, does
not end on fewer, and no iterator value on the way lies past `end()`. -/
theorem xrange_traversal_terminates (b e s : Int) (hs : s ≠ 0) :
    ∃ n : ℕ, len_xrange ⟨b, e, s⟩ = n ∧ (xrange.end_ ⟨b, e, s⟩).value = b + n * s ∧
      (∀ fuel : ℕ, n ≤ fuel → list_xrange fuel ⟨b, e, s⟩ = some (progression b s n)) ∧
      (progression b s n).length = n ∧
      (∀ fuel : ℕ, fuel < n → list_xrange fuel ⟨b, e, s⟩ = none) ∧
      (∀ k : ℕ, k < n → b + k * s ≠ (xrange.end_ ⟨b, e, s⟩).value) ∧
      (∀ k : ℕ, k ≤ n → ¬ before s (b + k * s) (xrange.end_ ⟨b, e, s⟩).value) := by
  obtain ⟨n, h1, h2, _⟩ := len_xrange_spec b e s hs
  have hend := end_eq_of_value b e s n h2
  refine ⟨n, h1, by rw [h2]; ring, ?_, progression_length b s n, ?_, ?_, ?_⟩
  · intro fuel hf
    unfold list_xrange
    rw [hend]
    exact xrange_traverse_progression s s hs n b fuel hf
  · intro fuel hf
    unfold list_xrange
    rw [hend]
    exact xrange_traverse_short s s hs n b fuel hf
  · intro k hk heq
    rw [h2] at heq
    have h0 : s * ((n : ℤ) - k) = 0 := by linarith
    rcases mul_eq_zero.mp h0 with h3 | h3
    · exact hs h3
    · omega
  · intro k hk hb
    rw [h2] at hb
    unfold before at hb
    have hkn : (k : ℤ) ≤ n := by exact_mod_cast hk
    rcases hb with ⟨hp, hlt⟩ | ⟨hp, hlt⟩
    · have : s * (k : ℤ) ≤ s * n := mul_le_mul_of_nonneg_left hkn hp.le
      nlinarith
    · have : (-s) * (k : ℤ) ≤ (-s) * n := mul_le_mul_of_nonneg_left hkn (by omega)
      nlinarith

theorem xrange_traversal_terminates_witness :
    (5 : Int) ≠ 0 ∧ list_xrange 3 ⟨2, 14, 5⟩ = some [2, 7, 12] ∧
    ∃ n : ℕ, len_xrange ⟨2, 14, 5⟩ = n ∧ (xrange.end_ ⟨2, 14, 5⟩).value = 2 + n * 5 ∧
      (∀ fuel : ℕ, n ≤ fuel → list_xrange fuel ⟨2, 14, 5⟩ = some (progression 2 5 n)) ∧
      (progression 2 5 n).length = n ∧
      (∀ fuel : ℕ, fuel < n → list_xrange fuel ⟨2, 14, 5⟩ = none) ∧
      (∀ k : ℕ, k < n → (2 : Int) + k * 5 ≠ (xrange.end_ ⟨2, 14, 5⟩).value) ∧
      (∀ k : ℕ, k ≤ n → ¬ before 5 (2 + k * 5) (xrange.end_ ⟨2, 14, 5⟩).value) :=
  ⟨by decide, by decide, xrange_traversal_terminates 2 14 5 (by decide)⟩

/-! ## Theorems on the reverse traversal of `xrange` and on `reversed` -/

theorem tdiv_same_sign (d s : Int) (h : (0 < s ∧ 0 < d) ∨ (s < 0 ∧ d < 0)) :
    ∃ q : ℕ, d.tdiv s = q ∧ ∃ r : Int, d = s * q + r ∧
      ((0 < s ∧ 0 ≤ r ∧ r < s) ∨ (s < 0 ∧ s < r ∧ r ≤ 0)) := by
  rcases h with ⟨hs, hd⟩ | ⟨hs, hd⟩
  · have hq : 0 ≤ d / s := Int.ediv_nonneg hd.le hs.le
    refine ⟨(d / s).toNat, ?_, d % s, ?_, Or.inl ⟨hs, ?_, ?_⟩⟩
    · rw [Int.tdiv_eq_ediv hd.le hs.le, Int.toNat_of_nonneg hq]
    · rw [Int.toNat_of_nonneg hq]; exact (Int.ediv_add_emod d s).symm
    · exact Int.emod_nonneg d hs.ne.symm
    · exact Int.emod_lt_of_pos d hs
  · have ht : d.tdiv s = (-d) / (-s) := by
      rw [← Int.tdiv_eq_ediv (by omega) (by omega), Int.neg_tdiv, Int.tdiv_neg, neg_neg]
    have hq : 0 ≤ (-d) / (-s) := Int.ediv_nonneg (by omega) (by omega)
    have h1 := Int.ediv_add_emod (-d) (-s)
    have h2 := Int.emod_nonneg (-d) (b := -s) (by omega)
    have h3 := Int.emod_lt_of_pos (-d) (b := -s) (by omega)
    refine ⟨((-d) / (-s)).toNat, ?_, -((-d) % (-s)), ?_, Or.inr ⟨hs, ?_, ?_⟩⟩
    · rw [ht, Int.toNat_of_nonneg hq]
    · rw [Int.toNat_of_nonneg hq]; linarith
    · omega
    · omega

theorem rend_value (b e s : Int) (hne : before s e b) :
    ∃ q : ℕ, xrange.rend ⟨b, e, s⟩ = ⟨(e - s) + (-s) * q, -s⟩ ∧ ∃ r : Int,
      e - b = s * q + r ∧ ((0 < s ∧ 0 ≤ r ∧ r < s) ∨ (s < 0 ∧ s < r ∧ r ≤ 0)) := by
  have hsign : (0 < s ∧ 0 < e - b) ∨ (s < 0 ∧ e - b < 0) := by
    unfold before at hne
    rcases hne with ⟨h1, h2⟩ | ⟨h1, h2⟩
    · exact Or.inl ⟨h1, by omega⟩
    · exact Or.inr ⟨h1, by omega⟩
  obtain ⟨q, hq, r, hr, hrange⟩ := tdiv_same_sign (e - b) s hsign
  refine ⟨q, ?_, r, hr, hrange⟩
  unfold xrange.rend
  simp only [hq]
  have hq0 : (0 : ℤ) ≤ 1 + q := by omega
  rcases hsign with ⟨hs, _⟩ | ⟨hs, _⟩
  · rw [if_pos hs, max_eq_right (mul_nonneg hs.le hq0)]
    congr 1; ring
  · rw [if_neg (by omega), min_eq_right (mul_nonpos_of_nonpos_of_nonneg hs.le hq0)]
    congr 1; ring

/-- C18 (as stated, refuted): the reverse iteration of `xrange(0, 5, 1)` yields
`4, 3, 2, 1, 0`: its last value is `b = 0` itself, which is not strictly beyond
`b`. -/
theorem xrange_reverse_yields_begin :
    before 1 5 0 ∧ list_reversed_xrange 5 (reversed ⟨0, 5, 1⟩) = some [4, 3, 2, 1, 0] ∧
      (0 : Int) ∈ [(4 : Int), 3, 2, 1, 0] ∧ ¬ ∀ x ∈ [(4 : Int), 3, 2, 1, 0], beyond 1 0 x := by
  decide

/-- C18 (amended): for a nonzero step and a non-empty range, the reverse
iteration from `rbegin()` to `rend()` ends and yields `e - s, e - 2s, …` in that
order, `(e - b) / s` values in all; every yielded value is at or beyond `b` in
the direction of `s`, and `b` itself is yielded exactly when `s` divides `e - b`. -/
theorem xrange_reverse_spec (b e s : Int) (hs : s ≠ 0) (hne : before s e b) :
    ∃ q : ℕ, (q : ℤ) = (e - b).tdiv s ∧
      (∀ fuel : ℕ, q ≤ fuel →
        list_reversed_xrange fuel (reversed ⟨b, e, s⟩) = some (progression (e - s) (-s) q)) ∧
      (∀ (i : ℕ) (h : i < (progression (e - s) (-s) q).length),
        (progression (e - s) (-s) q)[i] = e - (i + 1) * s) ∧
      (∀ x ∈ progression (e - s) (-s) q, beyond s b x ∨ x = b) ∧
      (b ∈ progression (e - s) (-s) q ↔ s ∣ e - b) := by
  obtain ⟨q, hrend, r, hr, hrange⟩ := rend_value b e s hne
  have hq : (q : ℤ) = (e - b).tdiv s := by
    have hsign : (0 < s ∧ 0 < e - b) ∨ (s < 0 ∧ e - b < 0) := by
      unfold before at hne
      rcases hne with ⟨h1, h2⟩ | ⟨h1, h2⟩
      · exact Or.inl ⟨h1, by omega⟩
      · exact Or.inr ⟨h1, by omega⟩
    obtain ⟨q2, hq2, r2, hr2, hrange2⟩ := tdiv_same_sign (e - b) s hsign
    rw [hq2]
    have hdiff : s * ((q : ℤ) - q2) = r2 - r := by linarith
    by_contra hcon
    have hne2 : (q : ℤ) - q2 ≠ 0 := fun h => hcon (by omega)
    rcases hrange with ⟨hp, h1, h2⟩ | ⟨hp, h1, h2⟩
    · rcases hrange2 with ⟨_, h3, h4⟩ | ⟨hp2, _, _⟩
      · rcases lt_or_gt_of_ne hne2 with hlt | hgt
        · have : s * ((q : ℤ) - q2) ≤ s * (-1) := mul_le_mul_of_nonneg_left (by omega) hp.le
          omega
        · have : s * 1 ≤ s * ((q : ℤ) - q2) := mul_le_mul_of_nonneg_left (by omega) hp.le
          omega
      · omega
    · rcases hrange2 with ⟨hp2, _, _⟩ | ⟨_, h3, h4⟩
      · omega
      · rcases lt_or_gt_of_ne hne2 with hlt | hgt
        · have : (-s) * ((q : ℤ) - q2) ≤ (-s) * (-1) :=
            mul_le_mul_of_nonneg_left (by omega) (by omega)
          have e1 : (-s) * ((q : ℤ) - q2) = -(s * ((q : ℤ) - q2)) := by ring
          omega
        · have : (-s) * 1 ≤ (-s) * ((q : ℤ) - q2) :=
            mul_le_mul_of_nonneg_left (by omega) (by omega)
          have e1 : (-s) * ((q : ℤ) - q2) = -(s * ((q : ℤ) - q2)) := by ring
          omega
  have hget : ∀ (i : ℕ) (h : i < (progression (e - s) (-s) q).length),
      (progression (e - s) (-s) q)[i] = e - (i + 1) * s := by
    intro i h
    rw [progression_getElem]; ring
  refine ⟨q, hq, ?_, hget, ?_, ?_⟩
  · intro fuel hf
    unfold list_reversed_xrange _reversed.begin _reversed.end_ reversed
    simp only [hrend, xrange.rbegin]
    exact xrange_traverse_progression (-s) (-s) (by omega) q (e - s) fuel hf
  · intro x hx
    obtain ⟨i, hi, rfl⟩ := List.getElem_of_mem hx
    rw [hget i hi]
    rw [progression_length] at hi
    have hiq : (i : ℤ) + 1 ≤ q := by omega
    unfold beyond
    rcases hrange with ⟨hp, h1, h2⟩ | ⟨hp, h1, h2⟩
    · have hm : s * ((i : ℤ) + 1) ≤ s * q := mul_le_mul_of_nonneg_left hiq hp.le
      have hc : ((i : ℤ) + 1) * s = s * ((i : ℤ) + 1) := by ring
      rw [hc]
      by_cases hb : b < e - s * ((i : ℤ) + 1)
      · exact Or.inl (Or.inl ⟨hp, hb⟩)
      · exact Or.inr (by omega)
    · have hm : (-s) * ((i : ℤ) + 1) ≤ (-s) * q :=
        mul_le_mul_of_nonneg_left hiq (by omega)
      have hc : ((i : ℤ) + 1) * s = s * ((i : ℤ) + 1) := by ring
      have e1 : (-s) * ((i : ℤ) + 1) = -(s * ((i : ℤ) + 1)) := by ring
      have e2 : (-s) * (q : ℤ) = -(s * q) := by ring
      rw [hc]
      by_cases hb : e - s * ((i : ℤ) + 1) < b
      · exact Or.inl (Or.inr ⟨hp, hb⟩)
      · exact Or.inr (by omega)
  · constructor
    · intro hx
      obtain ⟨i, hi, hbi⟩ := List.getElem_of_mem hx
      rw [hget i hi] at hbi
      exact ⟨(i : ℤ) + 1, by linarith⟩
    · intro hdvd
      obtain ⟨k, hk⟩ := hdvd
      have hqk : (q : ℤ) = k := by rw [hq, hk]; exact Int.mul_tdiv_cancel_left k hs
      have hk0 : k ≠ 0 := by
        intro h0
        rw [h0, mul_zero] at hk
        unfold before at hne
        omega
      have hq1 : 1 ≤ q := by omega
      have hlen : q - 1 < (progression (e - s) (-s) q).length := by
        rw [progression_length]; omega
      have hval : (progression (e - s) (-s) q)[q - 1] = b := by
        rw [hget (q - 1) hlen]
        have hc : (((q - 1 : ℕ) : ℤ) + 1) = k := by omega
        rw [hc]; linarith
      rw [← hval]
      exact List.getElem_mem _

theorem xrange_reverse_spec_witness :
    (3 : Int) ≠ 0 ∧ before 3 10 0 ∧
    list_reversed_xrange 3 (reversed ⟨0, 10, 3⟩) = some [7, 4, 1] ∧
    ∃ q : ℕ, (q : ℤ) = ((10 : Int) - 0).tdiv 3 ∧
      (∀ fuel : ℕ, q ≤ fuel →
        list_reversed_xrange fuel (reversed ⟨0, 10, 3⟩) = some (progression (10 - 3) (-3) q)) ∧
      (∀ (i : ℕ) (h : i < (progression (10 - 3) (-3) q).length),
        (progression (10 - 3) (-3) q)[i] = 10 - (i + 1) * 3) ∧
      (∀ x ∈ progression (10 - 3) (-3) q, beyond 3 0 x ∨ x = 0) ∧
      ((0 : Int) ∈ progression (10 - 3) (-3) q ↔ (3 : Int) ∣ 10 - 0) :=
  ⟨by decide, by decide, by decide, xrange_reverse_spec 0 10 3 (by decide) (by decide)⟩

theorem xrange_traverse_overshoot (fuel : ℕ) (v : Int) (hv : v < 0) :
    xrange_traverse ⟨0, -1⟩ fuel ⟨v, -1⟩ = none := by
  induction fuel generalizing v with
  | zero =>
    have hne : v ≠ 0 := by omega
    simp [xrange_traverse, xrange_iterator.ne, hne]
  | succ f ih =>
    have hne : v ≠ 0 := by omega
    simp only [xrange_traverse, xrange_iterator.ne, xrange_iterator.incr, bne_iff_ne, ne_eq,
      hne, not_false_eq_true, if_true]
    rw [ih (v + -1) (by omega)]
    rfl

/-- C15 (evaluation): materialising `reversed(xrange(0, 10, 3))` gives `[7, 4, 1]`,
whereas `list(xrange(0, 10, 3))` is `[0, 3, 6, 9]`, whose reverse is
`[9, 6, 3, 0]`; reversing `[7, 4, 1]` again gives `[1, 4, 7]`, not `[0, 3, 6, 9]`;
and on the empty `xrange(5, 0, 1)` the reverse traversal never reaches `rend()`. -/
theorem reversed_xrange_not_reverse :
    list_reversed_xrange 10 (reversed ⟨0, 10, 3⟩) = some [7, 4, 1] ∧
      list_xrange 10 ⟨0, 10, 3⟩ = some [0, 3, 6, 9] ∧
      ([7, 4, 1] : List Int) ≠ List.reverse [0, 3, 6, 9] ∧
      list_reversed_list (reversed ([7, 4, 1] : List Int)) = [1, 4, 7] ∧
      ([1, 4, 7] : List Int) ≠ [0, 3, 6, 9] ∧
      list_xrange 10 ⟨5, 0, 1⟩ = some [] ∧
      ∀ fuel : ℕ, list_reversed_xrange fuel (reversed ⟨5, 0, 1⟩) = none := by
  refine ⟨by decide, by decide, by decide, by decide, by decide, by decide, ?_⟩
  intro fuel
  have hb : (reversed (⟨5, 0, 1⟩ : xrange)).begin = ⟨-1, -1⟩ := by decide
  have he : (reversed (⟨5, 0, 1⟩ : xrange)).end_ = ⟨0, -1⟩ := by decide
  unfold list_reversed_xrange
  rw [hb, he]
  exact xrange_traverse_overshoot fuel (-1) (by decide)

/-! ## Evaluation of `bin` -/

theorem bin_skip_step (v i : Nat) (h1 : i ≠ 0) (h2 : v &&& i = 0) :
    bin_skip v i = bin_skip v (i >>> 1) := by
  rw [bin_skip]; simp [h1, h2]

theorem bin_skip_stop (v i : Nat) (h : i = 0 ∨ v &&& i ≠ 0) : bin_skip v i = i := by
  rw [bin_skip]
  rcases h with h | h
  · simp [h]
  · simp [h]

theorem bin_emit_step (v i : Nat) (oss : String) (h : i ≠ 0) :
    bin_emit v i oss =
      bin_emit v (i >>> 1) (if v &&& i ≠ 0 then oss ++ "1" else oss ++ "0") := by
  rw [bin_emit]; simp [h]

theorem bin_emit_end (v i : Nat) (oss : String) (h : i = 0) : bin_emit v i oss = oss := by
  rw [bin_emit]; simp [h]

theorem bin_char_zero : bin 1 0 = some "0b0" := by
  have h0 : shl_one_int (8 * 1 - 1) = some 128 := by decide
  have h1 : to_size_t 128 = 128 := by decide
  have h2 : to_size_t 0 = 0 := by decide
  simp only [bin, h0, h1, h2]
  iterate 8 rw [bin_skip_step _ _ (by decide) (by decide)]
  rw [bin_skip_stop _ _ (Or.inl (by decide))]
  decide

theorem bin_char_one : bin 1 1 = some "0b1" := by
  have h0 : shl_one_int (8 * 1 - 1) = some 128 := by decide
  have h1 : to_size_t 128 = 128 := by decide
  have h2 : to_size_t 1 = 1 := by decide
  simp only [bin, h0, h1, h2]
  iterate 7 rw [bin_skip_step _ _ (by decide) (by decide)]
  rw [bin_skip_stop _ _ (Or.inr (by decide))]
  rw [bin_emit_step _ _ _ (by decide), bin_emit_end _ _ _ (by decide)]
  decide

theorem bin_char_five : bin 1 5 = some "0b101" := by
  have h0 : shl_one_int (8 * 1 - 1) = some 128 := by decide
  have h1 : to_size_t 128 = 128 := by decide
  have h2 : to_size_t 5 = 5 := by decide
  simp only [bin, h0, h1, h2]
  iterate 5 rw [bin_skip_step _ _ (by decide) (by decide)]
  rw [bin_skip_stop _ _ (Or.inr (by decide))]
  iterate 3 rw [bin_emit_step _ _ _ (by decide)]
  rw [bin_emit_end _ _ _ (by decide)]
  decide

/-- C19 (evaluation): for `T = long` (8 bytes) the mask `1 << 63` is a shift of
the `int` literal `1` by more than its width, so `bin(1)` and `bin(0)` have no
defined result; for `T = char` (1 byte) the mask is `1 << 7` and `bin` gives
`"0b0"`, `"0b1"` and `"0b101"` on `0`, `1` and `5`. -/
theorem bin_long_undefined :
    bin 8 1 = none ∧ bin 8 0 = none ∧
      bin 1 0 = some "0b0" ∧ bin 1 1 = some "0b1" ∧ bin 1 5 = some "0b101" :=
  ⟨by decide, by decide, bin_char_zero, bin_char_one, bin_char_five⟩

/-! ## Theorems on `set.issuperset` -/

/-- C21: applied to the empty-set sentinel, `issuperset` returns false for every
argument `other`, an empty collection and the sentinel itself included; applied
to a set that is not the sentinel, it returns exactly what the member
`issuperset(other)` of the set returns (true, for the sample member, on an empty
set and an empty `other`). -/
theorem issuperset_spec {S U : Type} (member : S → U → Bool) (set : S) (other : U)
    (sentinel : empty_set) :
    issuperset_empty_set sentinel other = false ∧
      issuperset_empty_set sentinel ([] : List Int) = false ∧
      issuperset_empty_set sentinel empty_set.mk = false ∧
      issuperset member set other = member set other ∧
      issuperset list_issuperset [] [] = true ∧
      issuperset list_issuperset [1, 2, 3] [3, 1] = true ∧
      issuperset list_issuperset [1, 2, 3] [4] = false :=
  ⟨rfl, rfl, rfl, rfl, by decide, by decide, by decide⟩

end Pythonic
